import Mathlib

/-!
# Verification of the todors task manager's persistence core

A shallow embedding of `src/main.rs`: Rust strings are modelled as
`List Char`, the string primitives (`contains`, `starts_with`, `trim`,
`trim_start_matches`, `trim_end_matches`, `replace`, `lines`) are given
executable Lean counterparts with Rust's semantics, and the parser,
formatter and `TodoManager` operations are translated function by
function.  File I/O is modelled by carrying the would-be file content in
the manager state; `fs::read_to_string` failure is modelled by an
`Option` of the file content at construction time.
-/

set_option maxRecDepth 10000

/-- Rust `String`/`&str` contents, modelled as the list of characters. -/
abbrev Str := List Char

/-- Rust `char::is_whitespace` (the Unicode White_Space property). -/
def rustIsWsp (c : Char) : Bool :=
  c ∈ (['\t', '\n', '\x0b', '\x0c', '\r', ' ', '\u0085', '\u00A0',
        '\u1680', '\u2000', '\u2001', '\u2002', '\u2003', '\u2004',
        '\u2005', '\u2006', '\u2007', '\u2008', '\u2009', '\u200A',
        '\u2028', '\u2029', '\u202F', '\u205F', '\u3000'] : List Char)

/-- Rust `str::starts_with(pat)` for a literal pattern: `isPre pat s`
is true when `pat` is a prefix of `s`. -/
def isPre : Str → Str → Bool
  | [], _ => true
  | _ :: _, [] => false
  | p :: ps, c :: cs => if p = c then isPre ps cs else false

/-- Rust `s.starts_with(pat)`. -/
def strStartsWith (s pat : Str) : Bool := isPre pat s

/-- Rust `s.ends_with(pat)`. -/
def strEndsWith (s pat : Str) : Bool := isPre pat.reverse s.reverse

/-- Rust `s.contains(pat)`: some occurrence of `pat` anywhere in `s`. -/
def strContains (s pat : Str) : Bool :=
  match s with
  | [] => pat.isEmpty
  | _ :: cs => isPre pat s || strContains cs pat

/-- Fuel-indexed loop behind `strTrimStartMatches`; each iteration strips
one leading occurrence of `pat`, so `s.length` fuel always suffices. -/
def stripLoop (pat : Str) : Nat → Str → Str
  | 0, s => s
  | f + 1, s =>
    if isPre pat s ∧ pat ≠ [] then stripLoop pat f (s.drop pat.length) else s

/-- Rust `s.trim_start_matches(pat)`: repeatedly remove a leading
occurrence of `pat`. -/
def strTrimStartMatches (s pat : Str) : Str := stripLoop pat s.length s

/-- Rust `s.trim_end_matches(pat)`: repeatedly remove a trailing
occurrence of `pat` (stripping a suffix is stripping a prefix of the
reversal). -/
def strTrimEndMatches (s pat : Str) : Str :=
  (strTrimStartMatches s.reverse pat.reverse).reverse

/-- Fuel-indexed loop behind `strReplace`; each step consumes at least
one character of `s`, so `s.length` fuel always suffices. -/
def replLoop (pat r : Str) : Nat → Str → Str
  | 0, s => s
  | f + 1, s =>
    if isPre pat s ∧ pat ≠ [] then r ++ replLoop pat r f (s.drop pat.length)
    else
      match s with
      | [] => []
      | c :: cs => c :: replLoop pat r f cs

/-- Rust `s.replace(pat, r)` for a non-empty literal pattern: replace
every occurrence, scanning left to right without overlap.  (All patterns
used by the program are the non-empty literal priority tags.) -/
def strReplace (s pat r : Str) : Str := replLoop pat r s.length s

/-- Rust `s.trim_start()`. -/
def strTrimStart (s : Str) : Str := s.dropWhile rustIsWsp

/-- Rust `s.trim_end()`. -/
def strTrimEnd (s : Str) : Str := (s.reverse.dropWhile rustIsWsp).reverse

/-- Rust `s.trim()`. -/
def strTrim (s : Str) : Str := strTrimEnd (strTrimStart s)

/-- Prepend a character to the first segment of a split. -/
def consHead (c : Char) : List Str → List Str
  | [] => [[c]]
  | l :: ls => (c :: l) :: ls

/-- Segments of `s` between `'\n'` separators (keeping a final, possibly
empty, segment). -/
def splitOnNl : Str → List Str
  | [] => [[]]
  | c :: rest =>
    if c = '\n' then [] :: splitOnNl rest else consHead c (splitOnNl rest)

/-- Strip one trailing `'\r'` (for Rust's `\r\n` line-ending handling). -/
def rstripCr (l : Str) : Str := if l.getLast? = some '\r' then l.dropLast else l

/-- Post-processing for `strLines`: every segment except the last was
followed by `'\n'`, so it loses a trailing `'\r'`; a final empty segment
(text ended with `'\n'`, or was empty) yields no line. -/
def finishLines : List Str → List Str
  | [] => []
  | [l] => if l = [] then [] else [l]
  | l1 :: l2 :: ls => rstripCr l1 :: finishLines (l2 :: ls)

/-- Rust `s.lines()`. -/
def strLines (s : Str) : List Str := finishLines (splitOnNl s)

/-! ## Data model (`Priority`, `TodoItem`, `TodoSpace`) -/

/-- Rust `enum Priority { Low, Medium, High, Urgent }`. -/
inductive Priority
  | Low
  | Medium
  | High
  | Urgent
deriving DecidableEq

/-- Rust `struct TodoItem { item, status, priority }`. -/
structure TodoItem where
  item : Str
  status : Bool
  priority : Priority
deriving DecidableEq

/-- Rust `struct TodoSpace { name, todos }`. -/
structure TodoSpace where
  name : Str
  todos : List TodoItem
deriving DecidableEq

/-- The literal tag `"{URGENT}"`. -/
def urgentTag : Str := "{URGENT}".data

/-- The literal tag `"{HIGH}"`. -/
def highTag : Str := "{HIGH}".data

/-- The literal tag `"{MEDIUM}"`. -/
def mediumTag : Str := "{MEDIUM}".data

/-- The literal tag `"{LOW}"`. -/
def lowTag : Str := "{LOW}".data

/-- The distinguished space name `"Default"`. -/
def defaultName : Str := "Default".data

/-- Source `Priority::from_markdown`. -/
def Priority.from_markdown (line : Str) : Priority :=
  if strContains line urgentTag then .Urgent
  else if strContains line highTag then .High
  else if strContains line mediumTag then .Medium
  else if strContains line lowTag then .Low
  else .Medium

/-- Source `Priority::to_markdown`. -/
def Priority.to_markdown : Priority → Str
  | .Urgent => urgentTag
  | .High => highTag
  | .Medium => mediumTag
  | .Low => lowTag

/-! ## Parser (`parse_markdown_todos`) -/

/-- The pending checkbox test pattern `"- [ ]"`. -/
def pendingMark : Str := "- [ ]".data

/-- The completed checkbox test pattern `"- [x]"`. -/
def doneMark : Str := "- [x]".data

/-- The pending strip pattern `"- [ ] "` (with trailing space). -/
def pendingMarkSp : Str := "- [ ] ".data

/-- The completed strip pattern `"- [x] "` (with trailing space). -/
def doneMarkSp : Str := "- [x] ".data

/-- The header opener `"[["`. -/
def openBr : Str := "[[".data

/-- The header closer `"]]"`. -/
def closeBr : Str := "]]".data

/-- The parser's finalization guard: the accumulator is appended to the
output exactly when it has todos or is not named `"Default"`
(`if !current_space.todos.is_empty() || current_space.name != "Default"`). -/
def pushIfReal (spaces : List TodoSpace) (cur : TodoSpace) : List TodoSpace :=
  if ¬cur.todos.isEmpty ∨ cur.name ≠ defaultName then spaces ++ [cur] else spaces

/-- The checkbox-prefix strip in the parser's task branch:
`trimmed.trim_start_matches("- [x] ")` when completed, else
`trimmed.trim_start_matches("- [ ] ")`. -/
def taskDescr (trimmed : Str) (status : Bool) : Str :=
  if status then strTrimStartMatches trimmed doneMarkSp
  else strTrimStartMatches trimmed pendingMarkSp

/-- The parser's tag stripping and trim producing `item_text`:
`description.replace("{LOW}","").replace("{MEDIUM}","").replace("{HIGH}","").replace("{URGENT}","").trim()`. -/
def itemTextOf (description : Str) : Str :=
  strTrim (strReplace (strReplace (strReplace (strReplace
    description lowTag []) mediumTag []) highTag []) urgentTag [])

/-- One iteration of the parser's `for line in content.lines()` loop,
acting on the accumulator pair (finished spaces, current space); the
`trimmed`/`status`/`description` bindings of the source are written out
in full. -/
def parseLine (st : List TodoSpace × TodoSpace) (line : Str) :
    List TodoSpace × TodoSpace :=
  if strStartsWith (strTrim line) openBr ∧ strEndsWith (strTrim line) closeBr then
    (pushIfReal st.1 st.2,
     ⟨strTrimEndMatches (strTrimStartMatches (strTrim line) openBr) closeBr, []⟩)
  else if strStartsWith (strTrim line) pendingMark
      ∨ strStartsWith (strTrim line) doneMark then
    (st.1,
     ⟨st.2.name, st.2.todos ++
       [⟨itemTextOf (taskDescr (strTrim line) (strStartsWith (strTrim line) doneMark)),
         strStartsWith (strTrim line) doneMark,
         Priority.from_markdown
           (taskDescr (strTrim line) (strStartsWith (strTrim line) doneMark))⟩]⟩)
  else st

/-- Source `parse_markdown_todos`. -/
def parse_markdown_todos (content : Str) : List TodoSpace :=
  let st := (strLines content).foldl parseLine ([], ⟨defaultName, []⟩)
  pushIfReal st.1 st.2

/-! ## Formatter (`format_todos_as_markdown`) -/

/-- One task line `format!("- {} {} {}\n", checkbox, item, tag)`,
without the trailing newline. -/
def taskLine (t : TodoItem) : Str :=
  "- ".data ++ (if t.status then ("[x]").data else ("[ ]").data) ++ " ".data
    ++ t.item ++ " ".data ++ t.priority.to_markdown

/-- The formatter's output for one space: optional `[[name]]` header
line, each task line, and the blank separator line, each ended by `\n`. -/
def formatSpace (sp : TodoSpace) : Str :=
  (if sp.name ≠ defaultName then openBr ++ sp.name ++ closeBr ++ ['\n'] else [])
    ++ (sp.todos.map (fun t => taskLine t ++ ['\n'])).flatten ++ ['\n']

/-- Source `format_todos_as_markdown`. -/
def format_todos_as_markdown (spaces : List TodoSpace) : Str :=
  (spaces.map formatSpace).flatten

/-! ## Manager (`TodoManager`) -/

/-- The source's error string `"Space not found"`. -/
def spaceNotFoundMsg : Str := "Space not found".data

/-- The source's error string `"Index out of bounds"`. -/
def indexOutOfBoundsMsg : Str := "Index out of bounds".data

/-- Replace the element at position `n` by its image under `f`
(`Vec` index-assignment with an in-range index; out of range is a no-op,
but all callers bound-check first). -/
def modifyNth (f : α → α) : Nat → List α → List α
  | _, [] => []
  | 0, a :: as => f a :: as
  | n + 1, a :: as => a :: modifyNth f n as

/-- Rust `Vec::remove(index)` for an in-range index (out of range is a no-op,
but all callers bound-check first). -/
def removeNth : Nat → List α → List α
  | _, [] => []
  | 0, _ :: as => as
  | n + 1, a :: as => a :: removeNth n as

/-- The flip `space.todos[index].status = !space.todos[index].status` applied to
one item. -/
def flipStatus (t : TodoItem) : TodoItem := { t with status := !t.status }

/-- The find-or-create-then-push of `add_todo`: locate the first space with
the given name and push the item there; if none exists, append a fresh
space with that name holding the item. -/
def addToSpace : List TodoSpace → Str → TodoItem → List TodoSpace
  | [], name, it => [⟨name, [it]⟩]
  | sp :: rest, name, it =>
    if sp.name = name then ⟨sp.name, sp.todos ++ [it]⟩ :: rest
    else sp :: addToSpace rest name it

/-- The in-memory effect of `TodoManager::add_todo` (which then saves). -/
def add_todo (spaces : List TodoSpace) (todo_item : Str)
    (space_name : Option Str) (priority : Option Priority) : List TodoSpace :=
  addToSpace spaces (space_name.getD defaultName)
    ⟨todo_item, false, priority.getD .Medium⟩

/-- Source `TodoManager::toggle_todo` on the space list: find the first space
with the given name (`Err "Space not found"` if none), bound-check the
index (`Err "Index out of bounds"` if out of range), flip the status. -/
def toggleIn : List TodoSpace → Str → Nat → Except Str (List TodoSpace)
  | [], _, _ => .error spaceNotFoundMsg
  | sp :: rest, name, index =>
    if sp.name = name then
      if index ≥ sp.todos.length then .error indexOutOfBoundsMsg
      else .ok (⟨sp.name, modifyNth flipStatus index sp.todos⟩ :: rest)
    else
      match toggleIn rest name index with
      | .ok rest2 => .ok (sp :: rest2)
      | .error e => .error e

/-- The in-memory effect of `TodoManager::toggle_todo`. -/
def toggle_todo (spaces : List TodoSpace) (index : Nat)
    (space_name : Option Str) : Except Str (List TodoSpace) :=
  toggleIn spaces (space_name.getD defaultName) index

/-- Source `TodoManager::delete_todo` on the space list: same resolution and
failure modes as toggle, removing the indexed task on success. -/
def deleteIn : List TodoSpace → Str → Nat → Except Str (List TodoSpace)
  | [], _, _ => .error spaceNotFoundMsg
  | sp :: rest, name, index =>
    if sp.name = name then
      if index ≥ sp.todos.length then .error indexOutOfBoundsMsg
      else .ok (⟨sp.name, removeNth index sp.todos⟩ :: rest)
    else
      match deleteIn rest name index with
      | .ok rest2 => .ok (sp :: rest2)
      | .error e => .error e

/-- The in-memory effect of `TodoManager::delete_todo`. -/
def delete_todo (spaces : List TodoSpace) (index : Nat)
    (space_name : Option Str) : Except Str (List TodoSpace) :=
  deleteIn spaces (space_name.getD defaultName) index

/-- The manager state: the in-memory spaces plus the backing file's
content (`save_todos` rewrites the whole file from memory). -/
structure TodoManager where
  current_todo_spaces : List TodoSpace
  file : Str
deriving DecidableEq

/-- Source `TodoManager::new`: `existing` is the readable file content, `none`
when `fs::read_to_string` fails (file absent); on failure the manager
starts with one empty `"Default"` space and immediately saves it. -/
def TodoManager.new (existing : Option Str) : TodoManager :=
  match existing with
  | some content => ⟨parse_markdown_todos content, content⟩
  | none =>
    let sp : List TodoSpace := [⟨defaultName, []⟩]
    ⟨sp, format_todos_as_markdown sp⟩

/-- Source `TodoManager::add_todo` with its `save_todos` call. -/
def TodoManager.addTodo (m : TodoManager) (todo_item : Str)
    (space_name : Option Str) (priority : Option Priority) : TodoManager :=
  let sp := add_todo m.current_todo_spaces todo_item space_name priority
  ⟨sp, format_todos_as_markdown sp⟩

/-- Source `TodoManager::toggle_todo` with its `save_todos` call; on error the
manager (memory and file alike) is returned untouched, reflecting the
early `return Err` before any mutation or write. -/
def TodoManager.toggleTodo (m : TodoManager) (index : Nat)
    (space_name : Option Str) : TodoManager × Option Str :=
  match toggle_todo m.current_todo_spaces index space_name with
  | .ok sp => (⟨sp, format_todos_as_markdown sp⟩, none)
  | .error e => (m, some e)

/-- Source `TodoManager::delete_todo` with its `save_todos` call; error case as
in `TodoManager.toggleTodo`. -/
def TodoManager.deleteTodo (m : TodoManager) (index : Nat)
    (space_name : Option Str) : TodoManager × Option Str :=
  match delete_todo m.current_todo_spaces index space_name with
  | .ok sp => (⟨sp, format_todos_as_markdown sp⟩, none)
  | .error e => (m, some e)

/-! ## Derived views and predicates used by the claims -/

/-- The lines (without trailing newline) the formatter emits for one
space: optional header, task lines, blank separator. -/
def spaceLines (sp : TodoSpace) : List Str :=
  (if sp.name ≠ defaultName then [openBr ++ sp.name ++ closeBr] else [])
    ++ sp.todos.map taskLine ++ [[]]

/-- All lines the formatter emits for a space list. -/
def lineList (spaces : List TodoSpace) : List Str :=
  (spaces.map spaceLines).flatten

/-- A description that the parse/format round trip can preserve: it is
non-empty, free of the brace character (so free of every priority tag),
newline-free, has no surrounding whitespace, and does not begin with
`"- "` (which the checkbox strip would eat). -/
def goodItem (t : TodoItem) : Prop :=
  t.item ≠ [] ∧ '{' ∉ t.item ∧ '\n' ∉ t.item ∧ strTrim t.item = t.item ∧
    isPre ['-', ' '] t.item = false

/-- A space name the `[[...]]` header round trip preserves:
newline-free, not starting with `"[["` and not ending with `"]]"`
(`trim_start_matches`/`trim_end_matches` strip those repeatedly). -/
def goodName (n : Str) : Prop :=
  '\n' ∉ n ∧ isPre openBr n = false ∧ isPre closeBr n.reverse = false

/-- Round-trippable space sequence: every name and item is good, and a
space named `"Default"` may only appear first and may not be empty
(headerless task attribution and the vacuous-Default drop lose anything
else). -/
def goodSpaces (spaces : List TodoSpace) : Prop :=
  (∀ sp ∈ spaces, goodName sp.name ∧ ∀ t ∈ sp.todos, goodItem t) ∧
  (match spaces with
   | [] => True
   | s0 :: rest =>
     (s0.name = defaultName → s0.todos ≠ []) ∧ ∀ sp ∈ rest, sp.name ≠ defaultName)

instance (t : TodoItem) : Decidable (goodItem t) := by
  unfold goodItem
  infer_instance

instance (n : Str) : Decidable (goodName n) := by
  unfold goodName
  infer_instance

instance (spaces : List TodoSpace) : Decidable (goodSpaces spaces) := by
  unfold goodSpaces
  cases spaces with
  | nil => infer_instance
  | cons s0 rest => infer_instance

/-- The pattern `pat` occurs as a contiguous substring. -/
def occursIn (s pat : Str) : Prop := ∃ a b, s = a ++ (pat ++ b)

/-- Some `\x7b...\x7d`-bracketed substring occurs: an opening brace with
a closing brace somewhere after it. -/
def hasBracketed : Str → Bool
  | [] => false
  | c :: rest => (c = '{' && rest.contains '}') || hasBracketed rest

/-! ## Basic facts about the string model -/

theorem isPre_iff (p s : Str) : isPre p s = true ↔ ∃ t, s = p ++ t := by
  induction p generalizing s with
  | nil => simp [isPre]
  | cons a as ih =>
    cases s with
    | nil => simp [isPre]
    | cons c cs =>
      by_cases hac : a = c
      · subst hac
        simp [isPre, ih]
      · simp only [isPre, if_neg hac, List.cons_append]
        constructor
        · intro h
          exact absurd h (by simp)
        · rintro ⟨t, ht⟩
          injection ht with ht1 _
          exact absurd ht1.symm hac

theorem isPre_append (p t : Str) : isPre p (p ++ t) = true :=
  (isPre_iff p (p ++ t)).mpr ⟨t, rfl⟩

theorem strContains_iff (s pat : Str) :
    strContains s pat = true ↔ ∃ a b, s = a ++ (pat ++ b) := by
  induction s with
  | nil =>
    constructor
    · intro h
      have hp : pat = [] := List.isEmpty_iff.mp h
      exact ⟨[], [], by simp [hp]⟩
    · rintro ⟨a, b, h⟩
      have := List.append_eq_nil.mp h.symm
      have := List.append_eq_nil.mp this.2
      simp [strContains, this.1]
  | cons c cs ih =>
    simp only [strContains, Bool.or_eq_true, isPre_iff, ih]
    constructor
    · rintro (⟨t, ht⟩ | ⟨a, b, hab⟩)
      · exact ⟨[], t, by simp [ht]⟩
      · exact ⟨c :: a, b, by simp [hab]⟩
    · rintro ⟨a, b, h⟩
      cases a with
      | nil => exact Or.inl ⟨b, by simpa using h⟩
      | cons a0 as =>
        injection h with h1 h2
        exact Or.inr ⟨as, b, h2⟩

theorem strContains_skip {p0 : Char} (a b ps : Str) (h : p0 ∉ a) :
    strContains (a ++ b) (p0 :: ps) = strContains b (p0 :: ps) := by
  induction a with
  | nil => rfl
  | cons c cs ih =>
    have hc : ¬(p0 = c) := fun e => h (e ▸ List.mem_cons_self c cs)
    have hpre : isPre (p0 :: ps) (c :: (cs ++ b)) = false := by
      simp [isPre, hc]
    rw [List.cons_append]
    show (isPre (p0 :: ps) (c :: (cs ++ b)) || strContains (cs ++ b) (p0 :: ps))
        = strContains b (p0 :: ps)
    rw [hpre, Bool.false_or]
    exact ih (fun hm => h (List.mem_cons_of_mem c hm))

/-! ## Facts about `strTrimStartMatches` and `strReplace` -/

theorem stripLoop_noStrip (pat : Str) (f : Nat) (s : Str)
    (h : ¬(isPre pat s = true ∧ pat ≠ [])) : stripLoop pat f s = s := by
  cases f with
  | zero => rfl
  | succ g => exact if_neg h

theorem strTrimStartMatches_noStrip {s pat : Str} (h : isPre pat s = false) :
    strTrimStartMatches s pat = s :=
  stripLoop_noStrip pat s.length s (fun hc => by rw [h] at hc; exact absurd hc.1 (by simp))

theorem strTrimStartMatches_stripOne {pat rest : Str} (hne : pat ≠ [])
    (hrest : isPre pat rest = false) :
    strTrimStartMatches (pat ++ rest) pat = rest := by
  cases pat with
  | nil => exact absurd rfl hne
  | cons p ps =>
    show stripLoop (p :: ps) ((p :: ps) ++ rest).length ((p :: ps) ++ rest) = rest
    rw [List.cons_append, List.length_cons]
    show stripLoop (p :: ps) ((ps ++ rest).length + 1) (p :: (ps ++ rest)) = rest
    rw [show (p :: (ps ++ rest)) = (p :: ps) ++ rest from rfl]
    unfold stripLoop
    rw [if_pos ⟨isPre_append (p :: ps) rest, hne⟩, List.drop_left]
    exact stripLoop_noStrip _ _ _ (fun hc => by rw [hrest] at hc; exact absurd hc.1 (by simp))

theorem replLoop_nil (pat r : Str) (f : Nat) : replLoop pat r f [] = [] := by
  cases f with
  | zero => rfl
  | succ g =>
    show (if isPre pat [] = true ∧ pat ≠ [] then _ else _) = ([] : Str)
    rw [if_neg]
    rintro ⟨h1, h2⟩
    cases pat with
    | nil => exact h2 rfl
    | cons p ps => simp [isPre] at h1

theorem replLoop_fuel (pat r : Str) : ∀ f1 f2 s, s.length ≤ f1 → s.length ≤ f2 →
    replLoop pat r f1 s = replLoop pat r f2 s := by
  intro f1
  induction f1 with
  | zero =>
    intro f2 s h1 _
    have hs : s = [] := List.eq_nil_of_length_eq_zero (Nat.le_zero.mp h1)
    subst hs
    rw [replLoop_nil, replLoop_nil]
  | succ g ih =>
    intro f2 s h1 h2
    cases s with
    | nil => rw [replLoop_nil, replLoop_nil]
    | cons c cs =>
      cases f2 with
      | zero => simp at h2
      | succ g2 =>
        by_cases hcond : isPre pat (c :: cs) = true ∧ pat ≠ []
        · have hlen : ((c :: cs).drop pat.length).length ≤ g ∧
              ((c :: cs).drop pat.length).length ≤ g2 := by
            rcases hcond with ⟨_, hne⟩
            have hp1 : 1 ≤ pat.length := by
              cases pat with
              | nil => exact absurd rfl hne
              | cons _ _ => simp
            rw [List.length_drop]
            simp only [List.length_cons] at h1 h2 ⊢
            omega
          show (if _ then _ else _) = (if _ then _ else _)
          rw [if_pos hcond, if_pos hcond]
          exact congrArg (r ++ ·) (ih g2 _ hlen.1 hlen.2)
        · show (if _ then _ else _) = (if _ then _ else _)
          rw [if_neg hcond, if_neg hcond]
          show c :: replLoop pat r g cs = c :: replLoop pat r g2 cs
          simp only [List.length_cons] at h1 h2
          exact congrArg (c :: ·) (ih g2 cs (by omega) (by omega))

theorem strReplace_cons_noMatch {pat : Str} {c : Char} {cs : Str} (r : Str)
    (h : isPre pat (c :: cs) = false) :
    strReplace (c :: cs) pat r = c :: strReplace cs pat r := by
  show replLoop pat r (c :: cs).length (c :: cs) = _
  rw [List.length_cons]
  show (if _ then _ else _) = _
  rw [if_neg (fun hc => by rw [h] at hc; exact absurd hc.1 (by simp))]
  rfl

theorem strReplace_head {pat rest : Str} (r : Str) (hne : pat ≠ []) :
    strReplace (pat ++ rest) pat r = r ++ strReplace rest pat r := by
  cases pat with
  | nil => exact absurd rfl hne
  | cons p ps =>
    show replLoop (p :: ps) r ((p :: ps) ++ rest).length ((p :: ps) ++ rest) = _
    rw [List.cons_append, List.length_cons]
    show (if _ then _ else _) = _
    rw [if_pos ⟨by rw [← List.cons_append]; exact isPre_append (p :: ps) rest, hne⟩]
    congr 1
    rw [show (p :: (ps ++ rest)) = (p :: ps) ++ rest from rfl, List.drop_left]
    exact replLoop_fuel _ _ _ _ _
      (by rw [List.length_append]; omega) (le_refl _)

theorem strReplace_skip {p0 : Char} (a b ps r : Str) (h : p0 ∉ a) :
    strReplace (a ++ b) (p0 :: ps) r = a ++ strReplace b (p0 :: ps) r := by
  induction a with
  | nil => rfl
  | cons c cs ih =>
    have hc : ¬(p0 = c) := fun e => h (e ▸ List.mem_cons_self c cs)
    rw [List.cons_append,
      strReplace_cons_noMatch r (by simp [isPre, hc]),
      ih (fun hm => h (List.mem_cons_of_mem c hm))]
    rfl

/-! ## Facts about `strTrim` -/

theorem strTrimEnd_eq_self {s : Str}
    (h : ∀ x, s.getLast? = some x → rustIsWsp x = false) : strTrimEnd s = s := by
  unfold strTrimEnd
  cases hr : s.reverse with
  | nil =>
    have : s = [] := by simpa using congrArg List.reverse hr
    simp [this]
  | cons c cs =>
    have hc : rustIsWsp c = false := h c (by rw [← List.head?_reverse, hr]; rfl)
    rw [List.dropWhile_cons, hc]
    show (c :: cs).reverse = s
    rw [← hr, List.reverse_reverse]

theorem strTrim_eq_self {s : Str}
    (h1 : ∀ x, s.head? = some x → rustIsWsp x = false)
    (h2 : ∀ x, s.getLast? = some x → rustIsWsp x = false) : strTrim s = s := by
  unfold strTrim
  have hst : strTrimStart s = s := by
    unfold strTrimStart
    cases s with
    | nil => rfl
    | cons c cs =>
      rw [List.dropWhile_cons, h1 c rfl]
      simp
  rw [hst]
  exact strTrimEnd_eq_self h2

theorem strTrimStart_length_le (s : Str) : (strTrimStart s).length ≤ s.length :=
  (List.dropWhile_suffix rustIsWsp).length_le

theorem strTrimEnd_length_le (s : Str) : (strTrimEnd s).length ≤ s.length := by
  unfold strTrimEnd
  rw [List.length_reverse]
  calc (s.reverse.dropWhile rustIsWsp).length ≤ s.reverse.length :=
        (List.dropWhile_suffix rustIsWsp).length_le
    _ = s.length := List.length_reverse s

theorem trim_fix_start {s : Str} (hs : strTrim s = s) : strTrimStart s = s := by
  have hlen : (strTrim s).length = s.length := by rw [hs]
  have h1 := strTrimStart_length_le s
  have h2 := strTrimEnd_length_le (strTrimStart s)
  have : (strTrimStart s).length = s.length := by
    unfold strTrim at hlen
    omega
  exact (List.dropWhile_suffix rustIsWsp).eq_of_length this

theorem trim_fix_end {s : Str} (hs : strTrim s = s) : strTrimEnd s = s := by
  have := trim_fix_start hs
  unfold strTrim at hs
  rw [this] at hs
  exact hs

theorem trim_fix_head {s : Str} (hs : strTrim s = s) :
    ∀ x, s.head? = some x → rustIsWsp x = false := by
  intro x hx
  have hst := trim_fix_start hs
  cases s with
  | nil => simp at hx
  | cons c cs =>
    injection hx with hx
    subst hx
    unfold strTrimStart at hst
    rw [List.dropWhile_cons] at hst
    by_cases hw : rustIsWsp c = true
    · rw [hw] at hst
      simp only [if_pos rfl] at hst
      have := congrArg List.length hst
      have hle := (List.dropWhile_suffix (l := cs) rustIsWsp).length_le
      simp at this
      omega
    · simpa using hw

theorem trim_fix_last {s : Str} (hs : strTrim s = s) :
    ∀ x, s.getLast? = some x → rustIsWsp x = false := by
  intro x hx
  have hte := trim_fix_end hs
  unfold strTrimEnd at hte
  have hrev : s.reverse.dropWhile rustIsWsp = s.reverse := by
    have := congrArg List.reverse hte
    rwa [List.reverse_reverse] at this
  rw [← List.head?_reverse] at hx
  cases hr : s.reverse with
  | nil => rw [hr] at hx; simp at hx
  | cons c cs =>
    rw [hr] at hx hrev
    injection hx with hx
    subst hx
    rw [List.dropWhile_cons] at hrev
    by_cases hw : rustIsWsp c = true
    · rw [hw] at hrev
      simp only [if_pos rfl] at hrev
      have := congrArg List.length hrev
      have hle := (List.dropWhile_suffix (l := cs) rustIsWsp).length_le
      simp at this
      omega
    · simpa using hw

theorem strTrim_append_space {s : Str} (hs : strTrim s = s) :
    strTrim (s ++ [' ']) = s := by
  cases s with
  | nil => decide
  | cons c cs =>
    have hc : rustIsWsp c = false := trim_fix_head hs c rfl
    unfold strTrim
    have hstart : strTrimStart ((c :: cs) ++ [' ']) = (c :: cs) ++ [' '] := by
      unfold strTrimStart
      rw [List.cons_append, List.dropWhile_cons, hc]
      rfl
    rw [hstart]
    unfold strTrimEnd
    rw [List.reverse_append]
    show List.reverse (List.dropWhile rustIsWsp (' ' :: (c :: cs).reverse)) = c :: cs
    rw [List.dropWhile_cons]
    have hsp : rustIsWsp ' ' = true := by decide
    rw [hsp]
    simp only [if_pos rfl]
    have hte := trim_fix_end hs
    unfold strTrimEnd at hte
    have : (c :: cs).reverse.dropWhile rustIsWsp = (c :: cs).reverse := by
      have := congrArg List.reverse hte
      rwa [List.reverse_reverse] at this
    rw [this]
    simp

/-! ## Facts about `strLines` -/

theorem splitOnNl_ne_nil (s : Str) : splitOnNl s ≠ [] := by
  cases s with
  | nil => simp [splitOnNl]
  | cons c rest =>
    unfold splitOnNl
    by_cases hc : c = '\n'
    · simp [hc]
    · rw [if_neg hc]
      cases splitOnNl rest <;> simp [consHead]

theorem splitOnNl_append {l : Str} (rest : Str) (h : '\n' ∉ l) :
    splitOnNl (l ++ '\n' :: rest) = l :: splitOnNl rest := by
  induction l with
  | nil => simp [splitOnNl]
  | cons c cs ih =>
    have hc : ¬(c = '\n') := fun e => h (e ▸ List.mem_cons_self c cs)
    rw [List.cons_append]
    have hstep : splitOnNl (c :: (cs ++ '\n' :: rest))
        = consHead c (splitOnNl (cs ++ '\n' :: rest)) := by
      conv_lhs => unfold splitOnNl
      rw [if_neg hc]
    rw [hstep, ih (fun hm => h (List.mem_cons_of_mem c hm))]
    rfl

theorem rstripCr_eq_self {l : Str} (h : l.getLast? ≠ some '\r') : rstripCr l = l :=
  if_neg h

theorem strLines_flat (ls : List Str)
    (h : ∀ l ∈ ls, '\n' ∉ l ∧ l.getLast? ≠ some '\r') :
    strLines ((ls.map (fun l => l ++ ['\n'])).flatten) = ls := by
  induction ls with
  | nil => rfl
  | cons l ls ih =>
    have hl := h l (List.mem_cons_self l ls)
    rw [List.map_cons, List.flatten_cons, List.append_assoc]
    show strLines (l ++ ('\n' :: (List.map (fun l => l ++ ['\n']) ls).flatten)) = l :: ls
    unfold strLines
    rw [splitOnNl_append _ hl.1]
    obtain ⟨p, ps, hps⟩ : ∃ p ps, splitOnNl ((List.map (fun l => l ++ ['\n']) ls).flatten)
        = p :: ps := by
      cases hsp : splitOnNl ((List.map (fun l => l ++ ['\n']) ls).flatten) with
      | nil => exact absurd hsp (splitOnNl_ne_nil _)
      | cons p ps => exact ⟨p, ps, rfl⟩
    rw [hps]
    show rstripCr l :: finishLines (p :: ps) = l :: ls
    rw [rstripCr_eq_self hl.2, ← hps]
    exact congrArg (l :: ·) (ih (fun x hx => h x (List.mem_cons_of_mem l hx)))

/-! ## The formatter's output, line by line -/

theorem formatSpace_eq (sp : TodoSpace) :
    formatSpace sp = ((spaceLines sp).map (fun l => l ++ ['\n'])).flatten := by
  unfold formatSpace spaceLines
  by_cases h : sp.name ≠ defaultName
  · rw [if_pos h, if_pos h]
    simp [List.map_append, List.flatten_append, List.append_assoc, Function.comp_def]
  · rw [if_neg h, if_neg h]
    simp [List.map_append, List.flatten_append, Function.comp_def]

theorem format_eq_lines (spaces : List TodoSpace) :
    format_todos_as_markdown spaces
      = ((lineList spaces).map (fun l => l ++ ['\n'])).flatten := by
  induction spaces with
  | nil => rfl
  | cons sp rest ih =>
    unfold format_todos_as_markdown lineList
    rw [List.map_cons, List.flatten_cons, List.map_cons, List.flatten_cons,
      List.map_append, List.flatten_append]
    unfold format_todos_as_markdown lineList at ih
    rw [ih, formatSpace_eq]

/-! ## Character-level facts about tags, headers and checkbox prefixes -/

theorem to_markdown_ne_nil (p : Priority) : p.to_markdown ≠ [] := by
  cases p <;> decide

theorem to_markdown_no_nl (p : Priority) : '\n' ∉ p.to_markdown := by
  cases p <;> decide

theorem getLast?_tag (x : Str) (p : Priority) :
    (x ++ ' ' :: p.to_markdown).getLast? = some '}' := by
  rw [List.getLast?_append_of_ne_nil x (by simp)]
  cases p <;> decide

theorem isPre_pair_append {a b : Char} {n rest : Str} (h : isPre [a, b] n = false)
    (h1 : ∀ x, rest.head? = some x → ¬(a = x) ∧ ¬(b = x)) :
    isPre [a, b] (n ++ rest) = false := by
  cases n with
  | nil =>
    cases rest with
    | nil => rfl
    | cons r0 rs =>
      show isPre [a, b] (r0 :: rs) = false
      unfold isPre
      rw [if_neg (h1 r0 rfl).1]
  | cons c1 n1 =>
    cases n1 with
    | nil =>
      show isPre [a, b] (c1 :: rest) = false
      unfold isPre
      by_cases hc : a = c1
      · rw [if_pos hc]
        cases rest with
        | nil => rfl
        | cons r0 rs =>
          show isPre [b] (r0 :: rs) = false
          unfold isPre
          rw [if_neg (h1 r0 rfl).2]
      · rw [if_neg hc]
    | cons c2 n2 =>
      show isPre [a, b] (c1 :: c2 :: (n2 ++ rest)) = false
      unfold isPre at h ⊢
      by_cases hc1 : a = c1
      · rw [if_pos hc1] at h ⊢
        unfold isPre at h ⊢
        by_cases hc2 : b = c2
        · rw [if_pos hc2] at h
          exact absurd h (by simp [isPre])
        · rw [if_neg hc2]
      · rw [if_neg hc1]

theorem isPre_dash_space_bracket (ms : Str) {item : Str} (tag : Str)
    (hdash : isPre ['-', ' '] item = false) (htag : ∀ x, tag.head? = some x → x ≠ '[') :
    isPre ('-' :: ' ' :: '[' :: ms) (item ++ ' ' :: tag) = false := by
  cases item with
  | nil =>
    show isPre ('-' :: ' ' :: '[' :: ms) (' ' :: tag) = false
    unfold isPre
    rw [if_neg (by decide : ¬('-' = ' '))]
  | cons c cs =>
    cases cs with
    | nil =>
      show isPre ('-' :: ' ' :: '[' :: ms) (c :: ' ' :: tag) = false
      unfold isPre
      by_cases hc : '-' = c
      · rw [if_pos hc]
        unfold isPre
        rw [if_pos rfl]
        cases tag with
        | nil => rfl
        | cons t0 ts =>
          show isPre ('[' :: ms) (t0 :: ts) = false
          unfold isPre
          rw [if_neg (fun e => htag t0 rfl e.symm)]
      · rw [if_neg hc]
    | cons c2 cs2 =>
      show isPre ('-' :: ' ' :: '[' :: ms) (c :: c2 :: (cs2 ++ ' ' :: tag)) = false
      unfold isPre at hdash ⊢
      by_cases hc : '-' = c
      · rw [if_pos hc] at hdash ⊢
        unfold isPre at hdash ⊢
        by_cases hc2 : ' ' = c2
        · rw [if_pos hc2] at hdash
          exact absurd hdash (by simp [isPre])
        · rw [if_neg hc2]
      · rw [if_neg hc]

/-! ## Decoding and stripping a formatted task remainder -/

theorem from_markdown_item_tag {item : Str} (h : '{' ∉ item) (p : Priority) :
    Priority.from_markdown (item ++ ' ' :: p.to_markdown) = p := by
  have hskip : ∀ tagl tag : Str, tag = '{' :: tagl →
      strContains (item ++ ' ' :: p.to_markdown) tag
        = strContains (' ' :: p.to_markdown) tag := by
    intro tagl tag htag
    rw [htag, strContains_skip item _ tagl h]
  cases p with
  | Low =>
    unfold Priority.from_markdown
    rw [hskip urgentTag.tail urgentTag (by decide), hskip highTag.tail highTag (by decide),
      hskip mediumTag.tail mediumTag (by decide), hskip lowTag.tail lowTag (by decide)]
    decide
  | Medium =>
    unfold Priority.from_markdown
    rw [hskip urgentTag.tail urgentTag (by decide), hskip highTag.tail highTag (by decide),
      hskip mediumTag.tail mediumTag (by decide)]
    rw [if_neg (show ¬(strContains (' ' :: Priority.to_markdown .Medium) urgentTag = true)
          from by decide),
      if_neg (show ¬(strContains (' ' :: Priority.to_markdown .Medium) highTag = true)
          from by decide),
      if_pos (show strContains (' ' :: Priority.to_markdown .Medium) mediumTag = true
          from by decide)]
  | High =>
    unfold Priority.from_markdown
    rw [hskip urgentTag.tail urgentTag (by decide), hskip highTag.tail highTag (by decide)]
    rw [if_neg (show ¬(strContains (' ' :: Priority.to_markdown .High) urgentTag = true)
          from by decide),
      if_pos (show strContains (' ' :: Priority.to_markdown .High) highTag = true
          from by decide)]
  | Urgent =>
    unfold Priority.from_markdown
    rw [hskip urgentTag.tail urgentTag (by decide)]
    rw [if_pos (show strContains (' ' :: Priority.to_markdown .Urgent) urgentTag = true
          from by decide)]

theorem itemTextOf_item_tag {item : Str} (h2 : '{' ∉ item)
    (h3 : strTrim item = item) (p : Priority) :
    itemTextOf (item ++ ' ' :: p.to_markdown) = item := by
  have hskipR : ∀ (tagl tag b : Str), tag = '{' :: tagl →
      strReplace (item ++ b) tag [] = item ++ strReplace b tag [] := by
    intro tagl tag b htag
    rw [htag, strReplace_skip item b tagl [] h2]
  unfold itemTextOf
  cases p with
  | Low =>
    rw [hskipR lowTag.tail lowTag _ (by decide),
      show strReplace (' ' :: Priority.to_markdown .Low) lowTag [] = [' '] from by decide,
      hskipR mediumTag.tail mediumTag _ (by decide),
      show strReplace [' '] mediumTag [] = [' '] from by decide,
      hskipR highTag.tail highTag _ (by decide),
      show strReplace [' '] highTag [] = [' '] from by decide,
      hskipR urgentTag.tail urgentTag _ (by decide),
      show strReplace [' '] urgentTag [] = [' '] from by decide]
    exact strTrim_append_space h3
  | Medium =>
    rw [hskipR lowTag.tail lowTag _ (by decide),
      show strReplace (' ' :: Priority.to_markdown .Medium) lowTag []
        = ' ' :: Priority.to_markdown .Medium from by decide,
      hskipR mediumTag.tail mediumTag _ (by decide),
      show strReplace (' ' :: Priority.to_markdown .Medium) mediumTag [] = [' ']
        from by decide,
      hskipR highTag.tail highTag _ (by decide),
      show strReplace [' '] highTag [] = [' '] from by decide,
      hskipR urgentTag.tail urgentTag _ (by decide),
      show strReplace [' '] urgentTag [] = [' '] from by decide]
    exact strTrim_append_space h3
  | High =>
    rw [hskipR lowTag.tail lowTag _ (by decide),
      show strReplace (' ' :: Priority.to_markdown .High) lowTag []
        = ' ' :: Priority.to_markdown .High from by decide,
      hskipR mediumTag.tail mediumTag _ (by decide),
      show strReplace (' ' :: Priority.to_markdown .High) mediumTag []
        = ' ' :: Priority.to_markdown .High from by decide,
      hskipR highTag.tail highTag _ (by decide),
      show strReplace (' ' :: Priority.to_markdown .High) highTag [] = [' ']
        from by decide,
      hskipR urgentTag.tail urgentTag _ (by decide),
      show strReplace [' '] urgentTag [] = [' '] from by decide]
    exact strTrim_append_space h3
  | Urgent =>
    rw [hskipR lowTag.tail lowTag _ (by decide),
      show strReplace (' ' :: Priority.to_markdown .Urgent) lowTag []
        = ' ' :: Priority.to_markdown .Urgent from by decide,
      hskipR mediumTag.tail mediumTag _ (by decide),
      show strReplace (' ' :: Priority.to_markdown .Urgent) mediumTag []
        = ' ' :: Priority.to_markdown .Urgent from by decide,
      hskipR highTag.tail highTag _ (by decide),
      show strReplace (' ' :: Priority.to_markdown .Urgent) highTag []
        = ' ' :: Priority.to_markdown .Urgent from by decide,
      hskipR urgentTag.tail urgentTag _ (by decide),
      show strReplace (' ' :: Priority.to_markdown .Urgent) urgentTag [] = [' ']
        from by decide]
    exact strTrim_append_space h3

/-! ## How `parseLine` treats each kind of emitted line -/

theorem taskLine_eq (t : TodoItem) :
    taskLine t = (if t.status then doneMarkSp else pendingMarkSp)
      ++ (t.item ++ ' ' :: t.priority.to_markdown) := by
  cases h : t.status with
  | false =>
    unfold taskLine
    rw [h]
    simp only [List.append_assoc]
    rfl
  | true =>
    unfold taskLine
    rw [h]
    simp only [List.append_assoc]
    rfl

theorem parseLine_blank (st : List TodoSpace × TodoSpace) : parseLine st [] = st := rfl

theorem taskLine_last (t : TodoItem) : (taskLine t).getLast? = some '}' := by
  rw [taskLine_eq, ← List.append_assoc]
  exact getLast?_tag _ t.priority

theorem taskLine_no_nl (t : TodoItem) (h : '\n' ∉ t.item) : '\n' ∉ taskLine t := by
  rw [taskLine_eq]
  intro hm
  rcases List.mem_append.mp hm with hm1 | hm2
  · cases ht : t.status
    · rw [ht] at hm1
      exact absurd hm1 (by decide)
    · rw [ht] at hm1
      exact absurd hm1 (by decide)
  · rcases List.mem_append.mp hm2 with hm3 | hm4
    · exact h hm3
    · rcases List.mem_cons.mp hm4 with hm5 | hm6
      · exact absurd hm5 (by decide)
      · exact to_markdown_no_nl t.priority hm6

theorem headerLine_last (n : Str) : (openBr ++ (n ++ closeBr)).getLast? = some ']' := by
  rw [← List.append_assoc, List.getLast?_append_of_ne_nil _ (by decide : closeBr ≠ [])]
  decide

theorem headerLine_no_nl (n : Str) (h : '\n' ∉ n) : '\n' ∉ openBr ++ (n ++ closeBr) := by
  intro hm
  rcases List.mem_append.mp hm with hm1 | hm2
  · exact absurd hm1 (by decide)
  · rcases List.mem_append.mp hm2 with hm3 | hm4
    · exact h hm3
    · exact absurd hm4 (by decide)

theorem parseLine_header (st : List TodoSpace × TodoSpace) (n : Str) (hg : goodName n) :
    parseLine st (openBr ++ (n ++ closeBr)) = (pushIfReal st.1 st.2, ⟨n, []⟩) := by
  obtain ⟨hnl, hopen, hclose⟩ := hg
  have htrim : strTrim (openBr ++ (n ++ closeBr)) = openBr ++ (n ++ closeBr) := by
    apply strTrim_eq_self
    · intro x hx
      have : some '[' = some x := hx
      injection this with hx2
      rw [← hx2]
      decide
    · intro x hx
      rw [headerLine_last n] at hx
      injection hx with hx2
      rw [← hx2]
      decide
  have hstart : strStartsWith (openBr ++ (n ++ closeBr)) openBr = true :=
    isPre_append openBr (n ++ closeBr)
  have hends : strEndsWith (openBr ++ (n ++ closeBr)) closeBr = true := by
    unfold strEndsWith
    rw [List.reverse_append, List.reverse_append,
      show closeBr.reverse = (']' :: ']' :: []) from by decide, List.append_assoc]
    exact isPre_append (']' :: ']' :: []) _
  have hname : strTrimEndMatches (strTrimStartMatches (openBr ++ (n ++ closeBr)) openBr)
      closeBr = n := by
    have h1 : isPre openBr (n ++ closeBr) = false := by
      show isPre ['[', '['] (n ++ closeBr) = false
      apply isPre_pair_append hopen
      intro x hx
      have : some ']' = some x := hx
      injection this with hx2
      rw [← hx2]
      exact ⟨by decide, by decide⟩
    rw [strTrimStartMatches_stripOne (by decide) h1]
    unfold strTrimEndMatches
    rw [List.reverse_append, show closeBr.reverse = closeBr from by decide,
      strTrimStartMatches_stripOne (by decide : closeBr ≠ []) hclose,
      List.reverse_reverse]
  unfold parseLine
  rw [htrim, hstart, hends, hname]
  rw [if_pos ⟨rfl, rfl⟩]

theorem to_markdown_head (p : Priority) : p.to_markdown.head? = some '{' := by
  cases p <;> decide

theorem parseLine_task (st : List TodoSpace × TodoSpace) (t : TodoItem) (hg : goodItem t) :
    parseLine st (taskLine t) = (st.1, ⟨st.2.name, st.2.todos ++ [t]⟩) := by
  obtain ⟨item, status, prio⟩ := t
  obtain ⟨h1, h2, h3, h4, h5⟩ := hg
  simp only at h1 h2 h3 h4 h5
  have htag : ∀ x, prio.to_markdown.head? = some x → x ≠ '[' := by
    intro x hx
    rw [to_markdown_head] at hx
    injection hx with hx2
    rw [← hx2]
    decide
  cases status with
  | false =>
    have hline : taskLine ⟨item, false, prio⟩
        = pendingMarkSp ++ (item ++ ' ' :: prio.to_markdown) := by
      rw [taskLine_eq]
      rfl
    rw [hline]
    have htrim : strTrim (pendingMarkSp ++ (item ++ ' ' :: prio.to_markdown))
        = pendingMarkSp ++ (item ++ ' ' :: prio.to_markdown) := by
      apply strTrim_eq_self
      · intro x hx
        have : some '-' = some x := hx
        injection this with hx2
        rw [← hx2]
        decide
      · intro x hx
        rw [← List.append_assoc, getLast?_tag _ prio] at hx
        injection hx with hx2
        rw [← hx2]
        decide
    have hopen : strStartsWith (pendingMarkSp ++ (item ++ ' ' :: prio.to_markdown))
        openBr = false := rfl
    have hpend : strStartsWith (pendingMarkSp ++ (item ++ ' ' :: prio.to_markdown))
        pendingMark = true := rfl
    have hdone : strStartsWith (pendingMarkSp ++ (item ++ ' ' :: prio.to_markdown))
        doneMark = false := rfl
    have hdescr : strTrimStartMatches (pendingMarkSp ++ (item ++ ' ' :: prio.to_markdown))
        pendingMarkSp = item ++ ' ' :: prio.to_markdown := by
      apply strTrimStartMatches_stripOne (by decide)
      show isPre ('-' :: ' ' :: '[' :: (' ' :: ']' :: ' ' :: []))
        (item ++ ' ' :: prio.to_markdown) = false
      exact isPre_dash_space_bracket _ _ h5 htag
    unfold parseLine
    rw [htrim]
    rw [if_neg (fun hc => by rw [hopen] at hc; exact absurd hc.1 (by simp))]
    rw [hpend, hdone]
    rw [if_pos (Or.inl rfl)]
    unfold taskDescr
    simp only [Bool.false_eq_true, if_neg (by simp : ¬(False))]
    rw [hdescr, from_markdown_item_tag h2 prio, itemTextOf_item_tag h2 h4 prio]
  | true =>
    have hline : taskLine ⟨item, true, prio⟩
        = doneMarkSp ++ (item ++ ' ' :: prio.to_markdown) := by
      rw [taskLine_eq]
      rfl
    rw [hline]
    have htrim : strTrim (doneMarkSp ++ (item ++ ' ' :: prio.to_markdown))
        = doneMarkSp ++ (item ++ ' ' :: prio.to_markdown) := by
      apply strTrim_eq_self
      · intro x hx
        have : some '-' = some x := hx
        injection this with hx2
        rw [← hx2]
        decide
      · intro x hx
        rw [← List.append_assoc, getLast?_tag _ prio] at hx
        injection hx with hx2
        rw [← hx2]
        decide
    have hopen : strStartsWith (doneMarkSp ++ (item ++ ' ' :: prio.to_markdown))
        openBr = false := rfl
    have hpend : strStartsWith (doneMarkSp ++ (item ++ ' ' :: prio.to_markdown))
        pendingMark = false := rfl
    have hdone : strStartsWith (doneMarkSp ++ (item ++ ' ' :: prio.to_markdown))
        doneMark = true := rfl
    have hdescr : strTrimStartMatches (doneMarkSp ++ (item ++ ' ' :: prio.to_markdown))
        doneMarkSp = item ++ ' ' :: prio.to_markdown := by
      apply strTrimStartMatches_stripOne (by decide)
      show isPre ('-' :: ' ' :: '[' :: ('x' :: ']' :: ' ' :: []))
        (item ++ ' ' :: prio.to_markdown) = false
      exact isPre_dash_space_bracket _ _ h5 htag
    unfold parseLine
    rw [htrim]
    rw [if_neg (fun hc => by rw [hopen] at hc; exact absurd hc.1 (by simp))]
    rw [hpend, hdone]
    rw [if_pos (Or.inr rfl)]
    unfold taskDescr
    rw [if_pos (rfl : true = true), hdescr, from_markdown_item_tag h2 prio,
      itemTextOf_item_tag h2 h4 prio]

/-! ## Folding the parser over the formatter's lines -/

theorem pushIfReal_ne {cur : TodoSpace} (X : List TodoSpace)
    (h : cur.name ≠ defaultName) : pushIfReal X cur = X ++ [cur] := by
  unfold pushIfReal
  rw [if_pos (Or.inr h)]

theorem pushIfReal_nonempty {cur : TodoSpace} (X : List TodoSpace)
    (h : cur.todos ≠ []) : pushIfReal X cur = X ++ [cur] := by
  unfold pushIfReal
  rw [if_pos (Or.inl (by simpa using h))]

theorem pushIfReal_default_empty (X : List TodoSpace) :
    pushIfReal X ⟨defaultName, []⟩ = X := by
  unfold pushIfReal
  rw [if_neg]
  rintro (hc | hc)
  · exact hc rfl
  · exact hc rfl

theorem foldl_taskLines (todos : List TodoItem) (acc : List TodoSpace) (cur : TodoSpace)
    (h : ∀ t ∈ todos, goodItem t) :
    (todos.map taskLine).foldl parseLine (acc, cur)
      = (acc, ⟨cur.name, cur.todos ++ todos⟩) := by
  induction todos generalizing cur with
  | nil => simp
  | cons t ts ih =>
    rw [List.map_cons, List.foldl_cons, parseLine_task _ _ (h t (List.mem_cons_self t ts)),
      ih ⟨cur.name, cur.todos ++ [t]⟩ (fun x hx => h x (List.mem_cons_of_mem t hx))]
    simp

theorem lineList_good (spaces : List TodoSpace)
    (h : ∀ sp ∈ spaces, goodName sp.name ∧ ∀ t ∈ sp.todos, goodItem t) :
    ∀ l ∈ lineList spaces, '\n' ∉ l ∧ l.getLast? ≠ some '\r' := by
  intro l hl
  unfold lineList at hl
  rw [List.mem_flatten] at hl
  obtain ⟨ls, hls, hlin⟩ := hl
  rw [List.mem_map] at hls
  obtain ⟨sp, hsp, rfl⟩ := hls
  obtain ⟨hname, hitems⟩ := h sp hsp
  unfold spaceLines at hlin
  rcases List.mem_append.mp hlin with hm | hm
  · rcases List.mem_append.mp hm with hm1 | hm2
    · by_cases hd : sp.name ≠ defaultName
      · rw [if_pos hd] at hm1
        rcases List.mem_cons.mp hm1 with he | he
        · subst he
          constructor
          · rw [List.append_assoc]
            exact headerLine_no_nl sp.name hname.1
          · rw [List.append_assoc, headerLine_last]
            simp
        · simp at he
      · rw [if_neg hd] at hm1
        simp at hm1
    · rw [List.mem_map] at hm2
      obtain ⟨t, ht, rfl⟩ := hm2
      refine ⟨taskLine_no_nl t (hitems t ht).2.2.1, ?_⟩
      rw [taskLine_last]
      simp
  · rcases List.mem_cons.mp hm with he | he
    · subst he
      exact ⟨by simp, by simp⟩
    · simp at he

theorem parse_spaces_tail (ss : List TodoSpace) (acc : List TodoSpace) (cur : TodoSpace)
    (hgood : ∀ sp ∈ ss, goodName sp.name ∧ ∀ t ∈ sp.todos, goodItem t)
    (hnd : ∀ sp ∈ ss, sp.name ≠ defaultName) :
    pushIfReal ((lineList ss).foldl parseLine (acc, cur)).1
        ((lineList ss).foldl parseLine (acc, cur)).2
      = pushIfReal acc cur ++ ss := by
  induction ss generalizing acc cur with
  | nil => simp [lineList]
  | cons sp rest ih =>
    have hll : lineList (sp :: rest) = spaceLines sp ++ lineList rest := by
      unfold lineList
      rw [List.map_cons, List.flatten_cons]
    have hsl : spaceLines sp
        = (openBr ++ (sp.name ++ closeBr)) :: (sp.todos.map taskLine ++ [[]]) := by
      unfold spaceLines
      rw [if_pos (hnd sp (List.mem_cons_self sp rest))]
      simp [List.append_assoc]
    rw [hll, List.foldl_append, hsl, List.foldl_cons,
      parseLine_header (acc, cur) sp.name (hgood sp (List.mem_cons_self sp rest)).1,
      List.foldl_append,
      foldl_taskLines sp.todos _ _
        (fun t ht => (hgood sp (List.mem_cons_self sp rest)).2 t ht)]
    rw [show List.foldl parseLine
        (pushIfReal acc cur, (⟨sp.name, [] ++ sp.todos⟩ : TodoSpace)) [[]]
        = (pushIfReal acc cur, ⟨sp.name, [] ++ sp.todos⟩) from rfl]
    rw [ih _ _ (fun x hx => hgood x (List.mem_cons_of_mem sp hx))
      (fun x hx => hnd x (List.mem_cons_of_mem sp hx))]
    rw [show (⟨sp.name, [] ++ sp.todos⟩ : TodoSpace) = sp from by simp]
    rw [pushIfReal_ne _ (hnd sp (List.mem_cons_self sp rest))]
    simp

theorem parse_format_good (spaces : List TodoSpace) (hg : goodSpaces spaces) :
    parse_markdown_todos (format_todos_as_markdown spaces) = spaces := by
  obtain ⟨hall, hstruct⟩ := hg
  have hlines : strLines (format_todos_as_markdown spaces) = lineList spaces := by
    rw [format_eq_lines]
    exact strLines_flat _ (lineList_good spaces hall)
  show pushIfReal ((strLines (format_todos_as_markdown spaces)).foldl parseLine
      ([], ⟨defaultName, []⟩)).1
    ((strLines (format_todos_as_markdown spaces)).foldl parseLine
      ([], ⟨defaultName, []⟩)).2 = spaces
  rw [hlines]
  cases spaces with
  | nil =>
    show pushIfReal [] ⟨defaultName, []⟩ = []
    exact pushIfReal_default_empty []
  | cons s0 rest =>
    simp only at hstruct
    by_cases hdef : s0.name = defaultName
    · have hne : s0.todos ≠ [] := hstruct.1 hdef
      have hll : lineList (s0 :: rest) = (s0.todos.map taskLine ++ [[]]) ++ lineList rest := by
        unfold lineList
        rw [List.map_cons, List.flatten_cons]
        unfold spaceLines
        rw [if_neg (by simpa using hdef)]
        simp
      rw [hll, List.foldl_append, List.foldl_append,
        foldl_taskLines s0.todos _ _ (fun t ht => (hall s0 (List.mem_cons_self s0 rest)).2 t ht)]
      rw [show List.foldl parseLine
          (([] : List TodoSpace), (⟨defaultName, [] ++ s0.todos⟩ : TodoSpace)) [[]]
          = ([], ⟨defaultName, [] ++ s0.todos⟩) from rfl]
      have hcur : (⟨defaultName, [] ++ s0.todos⟩ : TodoSpace) = s0 := by
        rw [← hdef]
        simp
      rw [hcur]
      rw [parse_spaces_tail rest [] s0
        (fun x hx => hall x (List.mem_cons_of_mem s0 hx)) hstruct.2]
      rw [pushIfReal_nonempty [] hne]
      simp
    · have hnd : ∀ sp ∈ s0 :: rest, sp.name ≠ defaultName := by
        intro sp hsp
        rcases List.mem_cons.mp hsp with he | he
        · subst he
          exact hdef
        · exact hstruct.2 sp he
      rw [parse_spaces_tail (s0 :: rest) [] ⟨defaultName, []⟩ hall hnd,
        pushIfReal_default_empty]
      simp

/-! ## Facts about the manager's list operations -/

theorem modifyNth_length (f : α → α) : ∀ (n : Nat) (l : List α),
    (modifyNth f n l).length = l.length := by
  intro n l
  induction l generalizing n with
  | nil => cases n <;> rfl
  | cons a as ih =>
    cases n with
    | zero => simp [modifyNth]
    | succ m => simp [modifyNth, ih]

theorem flipStatus_invol (t : TodoItem) : flipStatus (flipStatus t) = t := by
  cases t
  simp [flipStatus]

theorem modifyNth_flip_flip : ∀ (n : Nat) (l : List TodoItem),
    modifyNth flipStatus n (modifyNth flipStatus n l) = l := by
  intro n l
  induction l generalizing n with
  | nil => cases n <;> rfl
  | cons a as ih =>
    cases n with
    | zero => simp [modifyNth, flipStatus_invol]
    | succ m => simp [modifyNth, ih]

theorem removeNth_length : ∀ (n : Nat) (l : List α), n < l.length →
    (removeNth n l).length = l.length - 1 := by
  intro n l
  induction l generalizing n with
  | nil => intro h; simp at h
  | cons a as ih =>
    intro h
    cases n with
    | zero => simp [removeNth]
    | succ m =>
      rw [List.length_cons] at h
      have := ih m (by omega)
      simp only [removeNth, List.length_cons, this]
      omega

theorem removeNth_get?_lt : ∀ (n j : Nat) (l : List α), j < n →
    (removeNth n l).get? j = l.get? j := by
  intro n j l
  induction l generalizing n j with
  | nil => intro _; cases n <;> rfl
  | cons a as ih =>
    intro h
    cases n with
    | zero => omega
    | succ m =>
      cases j with
      | zero => rfl
      | succ j2 =>
        show (removeNth m as).get? j2 = as.get? j2
        exact ih m j2 (by omega)

theorem removeNth_get?_ge : ∀ (n j : Nat) (l : List α), n ≤ j →
    (removeNth n l).get? j = l.get? (j + 1) := by
  intro n j l
  induction l generalizing n j with
  | nil => intro _; cases n <;> rfl
  | cons a as ih =>
    intro h
    cases n with
    | zero => rfl
    | succ m =>
      cases j with
      | zero => omega
      | succ j2 =>
        show (removeNth m as).get? j2 = as.get? (j2 + 1)
        exact ih m j2 (by omega)

theorem toggleIn_not_found (spaces : List TodoSpace) (name : Str) (index : Nat)
    (h : ∀ sp ∈ spaces, sp.name ≠ name) :
    toggleIn spaces name index = .error spaceNotFoundMsg := by
  induction spaces with
  | nil => rfl
  | cons sp rest ih =>
    unfold toggleIn
    rw [if_neg (h sp (List.mem_cons_self sp rest)), ih (fun x hx => h x (List.mem_cons_of_mem sp hx))]

theorem deleteIn_not_found (spaces : List TodoSpace) (name : Str) (index : Nat)
    (h : ∀ sp ∈ spaces, sp.name ≠ name) :
    deleteIn spaces name index = .error spaceNotFoundMsg := by
  induction spaces with
  | nil => rfl
  | cons sp rest ih =>
    unfold deleteIn
    rw [if_neg (h sp (List.mem_cons_self sp rest)), ih (fun x hx => h x (List.mem_cons_of_mem sp hx))]

theorem toggleIn_found_oob (pre : List TodoSpace) (s : TodoSpace) (post : List TodoSpace)
    (name : Str) (index : Nat) (hpre : ∀ sp ∈ pre, sp.name ≠ name) (hs : s.name = name)
    (hidx : index ≥ s.todos.length) :
    toggleIn (pre ++ s :: post) name index = .error indexOutOfBoundsMsg := by
  induction pre with
  | nil =>
    show toggleIn (s :: post) name index = _
    unfold toggleIn
    rw [if_pos hs, if_pos hidx]
  | cons p ps ih =>
    rw [List.cons_append]
    unfold toggleIn
    rw [if_neg (hpre p (List.mem_cons_self p ps)),
      ih (fun x hx => hpre x (List.mem_cons_of_mem p hx))]

theorem toggleIn_found_ok (pre : List TodoSpace) (s : TodoSpace) (post : List TodoSpace)
    (name : Str) (index : Nat) (hpre : ∀ sp ∈ pre, sp.name ≠ name) (hs : s.name = name)
    (hidx : index < s.todos.length) :
    toggleIn (pre ++ s :: post) name index
      = .ok (pre ++ ⟨s.name, modifyNth flipStatus index s.todos⟩ :: post) := by
  induction pre with
  | nil =>
    show toggleIn (s :: post) name index = _
    unfold toggleIn
    rw [if_pos hs, if_neg (by omega)]
    rfl
  | cons p ps ih =>
    rw [List.cons_append]
    unfold toggleIn
    rw [if_neg (hpre p (List.mem_cons_self p ps)),
      ih (fun x hx => hpre x (List.mem_cons_of_mem p hx))]
    rfl

theorem deleteIn_found_oob (pre : List TodoSpace) (s : TodoSpace) (post : List TodoSpace)
    (name : Str) (index : Nat) (hpre : ∀ sp ∈ pre, sp.name ≠ name) (hs : s.name = name)
    (hidx : index ≥ s.todos.length) :
    deleteIn (pre ++ s :: post) name index = .error indexOutOfBoundsMsg := by
  induction pre with
  | nil =>
    show deleteIn (s :: post) name index = _
    unfold deleteIn
    rw [if_pos hs, if_pos hidx]
  | cons p ps ih =>
    rw [List.cons_append]
    unfold deleteIn
    rw [if_neg (hpre p (List.mem_cons_self p ps)),
      ih (fun x hx => hpre x (List.mem_cons_of_mem p hx))]

theorem deleteIn_found_ok (pre : List TodoSpace) (s : TodoSpace) (post : List TodoSpace)
    (name : Str) (index : Nat) (hpre : ∀ sp ∈ pre, sp.name ≠ name) (hs : s.name = name)
    (hidx : index < s.todos.length) :
    deleteIn (pre ++ s :: post) name index
      = .ok (pre ++ ⟨s.name, removeNth index s.todos⟩ :: post) := by
  induction pre with
  | nil =>
    show deleteIn (s :: post) name index = _
    unfold deleteIn
    rw [if_pos hs, if_neg (by omega)]
    rfl
  | cons p ps ih =>
    rw [List.cons_append]
    unfold deleteIn
    rw [if_neg (hpre p (List.mem_cons_self p ps)),
      ih (fun x hx => hpre x (List.mem_cons_of_mem p hx))]
    rfl

theorem toggleIn_ok_names (spaces : List TodoSpace) (name : Str) (index : Nat) :
    ∀ sp2, toggleIn spaces name index = .ok sp2
      → sp2.map TodoSpace.name = spaces.map TodoSpace.name := by
  induction spaces with
  | nil => intro sp2 h; exact absurd h (by simp [toggleIn])
  | cons sp rest ih =>
    intro sp2 h
    unfold toggleIn at h
    by_cases hn : sp.name = name
    · rw [if_pos hn] at h
      by_cases hi : index ≥ sp.todos.length
      · rw [if_pos hi] at h
        exact absurd h (by simp)
      · rw [if_neg hi] at h
        injection h with h2
        rw [← h2]
        simp
    · rw [if_neg hn] at h
      cases hrec : toggleIn rest name index with
      | ok rest2 =>
        rw [hrec] at h
        injection h with h2
        rw [← h2, List.map_cons, List.map_cons, ih rest2 hrec]
      | error e =>
        rw [hrec] at h
        exact absurd h (by simp)

theorem deleteIn_ok_names (spaces : List TodoSpace) (name : Str) (index : Nat) :
    ∀ sp2, deleteIn spaces name index = .ok sp2
      → sp2.map TodoSpace.name = spaces.map TodoSpace.name := by
  induction spaces with
  | nil => intro sp2 h; exact absurd h (by simp [deleteIn])
  | cons sp rest ih =>
    intro sp2 h
    unfold deleteIn at h
    by_cases hn : sp.name = name
    · rw [if_pos hn] at h
      by_cases hi : index ≥ sp.todos.length
      · rw [if_pos hi] at h
        exact absurd h (by simp)
      · rw [if_neg hi] at h
        injection h with h2
        rw [← h2]
        simp
    · rw [if_neg hn] at h
      cases hrec : deleteIn rest name index with
      | ok rest2 =>
        rw [hrec] at h
        injection h with h2
        rw [← h2, List.map_cons, List.map_cons, ih rest2 hrec]
      | error e =>
        rw [hrec] at h
        exact absurd h (by simp)

theorem toggleIn_invol (spaces : List TodoSpace) (name : Str) (index : Nat) :
    ∀ sp2, toggleIn spaces name index = .ok sp2
      → toggleIn sp2 name index = .ok spaces := by
  induction spaces with
  | nil => intro sp2 h; exact absurd h (by simp [toggleIn])
  | cons sp rest ih =>
    intro sp2 h
    unfold toggleIn at h
    by_cases hn : sp.name = name
    · rw [if_pos hn] at h
      by_cases hi : index ≥ sp.todos.length
      · rw [if_pos hi] at h
        exact absurd h (by simp)
      · rw [if_neg hi] at h
        injection h with h2
        rw [← h2]
        unfold toggleIn
        rw [if_pos hn, if_neg (by rw [modifyNth_length]; omega)]
        rw [modifyNth_flip_flip]
    · rw [if_neg hn] at h
      cases hrec : toggleIn rest name index with
      | ok rest2 =>
        rw [hrec] at h
        injection h with h2
        rw [← h2]
        unfold toggleIn
        rw [if_neg hn, ih rest2 hrec]
      | error e =>
        rw [hrec] at h
        exact absurd h (by simp)

theorem addToSpace_names (spaces : List TodoSpace) (name : Str) (it : TodoItem) :
    (addToSpace spaces name it).map TodoSpace.name
      = if name ∈ spaces.map TodoSpace.name then spaces.map TodoSpace.name
        else spaces.map TodoSpace.name ++ [name] := by
  induction spaces with
  | nil => simp [addToSpace]
  | cons sp rest ih =>
    unfold addToSpace
    by_cases hn : sp.name = name
    · rw [if_pos hn]
      rw [if_pos (by rw [List.map_cons, hn]; exact List.mem_cons_self name _)]
      simp
    · rw [if_neg hn, List.map_cons, List.map_cons, ih]
      by_cases hm : name ∈ rest.map TodoSpace.name
      · rw [if_pos hm, if_pos (List.mem_cons_of_mem sp.name hm)]
      · rw [if_neg hm, if_neg (by
          intro hc
          rcases List.mem_cons.mp hc with he | he
          · exact hn he.symm
          · exact hm he)]
        simp

/-! ## Stepping `strReplace` over whole tags and tag-free segments -/

theorem strReplace_nil (pat r : Str) : strReplace [] pat r = [] := rfl

theorem strReplace_braceFree {a : Str} (ps r : Str) (h : '{' ∉ a) :
    strReplace a ('{' :: ps) r = a := by
  conv_lhs => rw [← List.append_nil a]
  rw [strReplace_skip a [] ps r h, strReplace_nil, List.append_nil]

theorem isPre_brace_letter (pl : Char) (ps : Str) (ql : Char) (qrest : Str)
    (h : pl ≠ ql) : isPre ('{' :: pl :: ps) ('{' :: ql :: qrest) = false := by
  unfold isPre
  rw [if_pos rfl]
  unfold isPre
  rw [if_neg h]

theorem strReplace_cross {pl : Char} {ps : Str} (ql : Char) (qs rest r : Str)
    (hne : pl ≠ ql) (hfree : '{' ∉ ql :: qs) :
    strReplace (('{' :: ql :: qs) ++ rest) ('{' :: pl :: ps) r
      = ('{' :: ql :: qs) ++ strReplace rest ('{' :: pl :: ps) r := by
  rw [List.cons_append,
    strReplace_cons_noMatch r (by
      rw [List.cons_append]
      exact isPre_brace_letter pl ps ql (qs ++ rest) hne),
    strReplace_skip (ql :: qs) rest (pl :: ps) r hfree]
  rfl

/-! ## The claims -/

/-- Claim C1, counterexample: the store `[Work [a], Default [b]]` has
only non-empty, brace-free descriptions, yet formatting writes `b`'s
task line after `Work`'s block with no header (the `"Default"` header is
omitted), so parsing attributes `b` to `Work` and the round trip does
not restore the original sequence. -/
theorem c1_roundtrip_counterexample :
    (∀ sp ∈ ([⟨("Work").data, [⟨("a").data, false, .Medium⟩]⟩,
              ⟨defaultName, [⟨("b").data, false, .Medium⟩]⟩] : List TodoSpace),
      ∀ t ∈ sp.todos, t.item ≠ [] ∧ hasBracketed t.item = false) ∧
    parse_markdown_todos (format_todos_as_markdown
        [⟨("Work").data, [⟨("a").data, false, .Medium⟩]⟩,
         ⟨defaultName, [⟨("b").data, false, .Medium⟩]⟩])
      ≠ [⟨("Work").data, [⟨("a").data, false, .Medium⟩]⟩,
         ⟨defaultName, [⟨("b").data, false, .Medium⟩]⟩] := by decide

/-- Claim C1 (amended): `parse (format spaces) = spaces` holds when every
description is non-empty, brace-free (hence tag-free), newline-free,
without surrounding whitespace and not starting with `"- "`, every space
name is newline-free, does not start with `"[["` and does not end with
`"]]"`, and a `"Default"`-named space occurs only in first position and
only with at least one task. -/
theorem c1_roundtrip_amended (spaces : List TodoSpace) (hg : goodSpaces spaces) :
    parse_markdown_todos (format_todos_as_markdown spaces) = spaces :=
  parse_format_good spaces hg

/-- Witness for C1 (amended) at a concrete two-space store. -/
theorem c1_roundtrip_amended_witness :
    goodSpaces [⟨defaultName, [⟨("buy milk").data, true, .Medium⟩]⟩,
                ⟨("Work").data, [⟨("ship release").data, false, .Urgent⟩]⟩] ∧
    parse_markdown_todos (format_todos_as_markdown
        [⟨defaultName, [⟨("buy milk").data, true, .Medium⟩]⟩,
         ⟨("Work").data, [⟨("ship release").data, false, .Urgent⟩]⟩])
      = [⟨defaultName, [⟨("buy milk").data, true, .Medium⟩]⟩,
         ⟨("Work").data, [⟨("ship release").data, false, .Urgent⟩]⟩] :=
  ⟨by decide, c1_roundtrip_amended _ (by decide)⟩

/-- Claim C2, counterexample: formatting the one-element store holding
only the empty `"Default"` space and parsing the result does not return
that one-element store. -/
theorem c2_default_counterexample :
    parse_markdown_todos (format_todos_as_markdown [⟨defaultName, []⟩])
      ≠ [⟨defaultName, []⟩] := by decide

/-- Claim C2 (amended): formatting the store whose only space is the
empty `"Default"` space produces `"\n"`, and parsing that text yields
the EMPTY sequence: the parser's vacuous-Default guard drops the empty
accumulator instead of special-casing it back into existence. -/
theorem c2_default_empty_drops :
    format_todos_as_markdown [⟨defaultName, []⟩] = ("\n").data ∧
    parse_markdown_todos (("\n").data) = [] := by decide

/-- Claim C3: the end-to-end scenario.  Starting from an absent backing
file, the serialized content is `"\n"` after initialization,
`"- [ ] buy milk {MEDIUM}\n\n"` after `add("buy milk", None, None)`,
`"- [x] buy milk {MEDIUM}\n\n"` after `toggle(0, None)`, and
`"- [x] buy milk {MEDIUM}\n\n[[Work]]\n- [ ] ship release {URGENT}\n\n"`
after `add("ship release", Some("Work"), Some(Urgent))`. -/
theorem c3_scenario :
    (TodoManager.new none).file = ("\n").data ∧
    ((TodoManager.new none).addTodo (("buy milk").data) none none).file
      = ("- [ ] buy milk {MEDIUM}\n\n").data ∧
    ((((TodoManager.new none).addTodo (("buy milk").data) none none).toggleTodo
        0 none).1).file
      = ("- [x] buy milk {MEDIUM}\n\n").data ∧
    (((((TodoManager.new none).addTodo (("buy milk").data) none none).toggleTodo
        0 none).1).addTodo (("ship release").data) (some (("Work").data))
        (some .Urgent)).file
      = ("- [x] buy milk {MEDIUM}\n\n[[Work]]\n- [ ] ship release {URGENT}\n\n").data
    := by decide

/-- Claim C4, counterexample: initializing from a file whose content is
`"[[A]]\n[[A]]\n"` loads two spaces both named `"A"` — loading an
arbitrary file does not give unique space names. -/
theorem c4_unique_counterexample :
    (TodoManager.new (some (("[[A]]\n[[A]]\n").data))).current_todo_spaces
      = [⟨("A").data, []⟩, ⟨("A").data, []⟩] ∧
    ¬ ((TodoManager.new (some (("[[A]]\n[[A]]\n").data))).current_todo_spaces.map
        TodoSpace.name).Nodup := by decide

/-- Claim C4 (amended): space-name uniqueness holds after a fresh
initialization (absent file) and is preserved by every add, successful
toggle and successful delete; but it is not re-established when loading
an arbitrary file, which may contain duplicate headers. -/
theorem c4_unique_preserved :
    ((TodoManager.new none).current_todo_spaces.map TodoSpace.name).Nodup ∧
    (∀ (spaces : List TodoSpace) (item : Str) (nameOpt : Option Str)
        (prioOpt : Option Priority), (spaces.map TodoSpace.name).Nodup →
      ((add_todo spaces item nameOpt prioOpt).map TodoSpace.name).Nodup) ∧
    (∀ (spaces : List TodoSpace) (index : Nat) (nameOpt : Option Str)
        (spaces2 : List TodoSpace), (spaces.map TodoSpace.name).Nodup →
      toggle_todo spaces index nameOpt = .ok spaces2 →
      (spaces2.map TodoSpace.name).Nodup) ∧
    (∀ (spaces : List TodoSpace) (index : Nat) (nameOpt : Option Str)
        (spaces2 : List TodoSpace), (spaces.map TodoSpace.name).Nodup →
      delete_todo spaces index nameOpt = .ok spaces2 →
      (spaces2.map TodoSpace.name).Nodup) := by
  refine ⟨by decide, ?_, ?_, ?_⟩
  · intro spaces item nameOpt prioOpt hnd
    unfold add_todo
    rw [addToSpace_names]
    by_cases hm : nameOpt.getD defaultName ∈ spaces.map TodoSpace.name
    · rw [if_pos hm]
      exact hnd
    · rw [if_neg hm]
      simp [List.nodup_append, hnd, hm]
  · intro spaces index nameOpt spaces2 hnd h
    rw [toggleIn_ok_names spaces _ index spaces2 h]
    exact hnd
  · intro spaces index nameOpt spaces2 hnd h
    rw [deleteIn_ok_names spaces _ index spaces2 h]
    exact hnd

/-- Witness for C4 (amended): adding to a concrete duplicate-free store
keeps names unique. -/
theorem c4_unique_preserved_witness :
    (([⟨defaultName, []⟩] : List TodoSpace).map TodoSpace.name).Nodup ∧
    ((add_todo [⟨defaultName, []⟩] (("x").data) (some (("Work").data))
        none).map TodoSpace.name).Nodup :=
  ⟨by decide, c4_unique_preserved.2.1 _ _ _ _ (by decide)⟩

/-- Claim C5: toggle and delete return `"Space not found"` when no space
has the resolved name and `"Index out of bounds"` when the index is out
of range for the first space with that name; on those errors the manager
keeps both its in-memory spaces and its file untouched; on success
toggle flips exactly the indexed task's status, delete removes exactly
the indexed task, and the new state is persisted (the file becomes the
serialization of the new spaces). -/
theorem c5_toggle_delete_contract (spaces : List TodoSpace) (index : Nat)
    (nameOpt : Option Str) :
    ((∀ sp ∈ spaces, sp.name ≠ nameOpt.getD defaultName) →
      toggle_todo spaces index nameOpt = .error spaceNotFoundMsg ∧
      delete_todo spaces index nameOpt = .error spaceNotFoundMsg) ∧
    (∀ pre s post, spaces = pre ++ s :: post →
      (∀ sp ∈ pre, sp.name ≠ nameOpt.getD defaultName) →
      s.name = nameOpt.getD defaultName →
      ((index ≥ s.todos.length →
        toggle_todo spaces index nameOpt = .error indexOutOfBoundsMsg ∧
        delete_todo spaces index nameOpt = .error indexOutOfBoundsMsg) ∧
       (index < s.todos.length →
        toggle_todo spaces index nameOpt
          = .ok (pre ++ ⟨s.name, modifyNth flipStatus index s.todos⟩ :: post) ∧
        delete_todo spaces index nameOpt
          = .ok (pre ++ ⟨s.name, removeNth index s.todos⟩ :: post)))) ∧
    (∀ m : TodoManager, m.current_todo_spaces = spaces →
      (∀ e, toggle_todo spaces index nameOpt = .error e →
        m.toggleTodo index nameOpt = (m, some e)) ∧
      (∀ e, delete_todo spaces index nameOpt = .error e →
        m.deleteTodo index nameOpt = (m, some e)) ∧
      (∀ spaces2, toggle_todo spaces index nameOpt = .ok spaces2 →
        m.toggleTodo index nameOpt
          = (⟨spaces2, format_todos_as_markdown spaces2⟩, none)) ∧
      (∀ spaces2, delete_todo spaces index nameOpt = .ok spaces2 →
        m.deleteTodo index nameOpt
          = (⟨spaces2, format_todos_as_markdown spaces2⟩, none))) := by
  refine ⟨?_, ?_, ?_⟩
  · intro h
    exact ⟨toggleIn_not_found spaces _ index h, deleteIn_not_found spaces _ index h⟩
  · intro pre s post hsp hpre hs
    subst hsp
    constructor
    · intro hge
      exact ⟨toggleIn_found_oob pre s post _ index hpre hs hge,
        deleteIn_found_oob pre s post _ index hpre hs hge⟩
    · intro hlt
      exact ⟨toggleIn_found_ok pre s post _ index hpre hs hlt,
        deleteIn_found_ok pre s post _ index hpre hs hlt⟩
  · intro m hm
    refine ⟨?_, ?_, ?_, ?_⟩
    · intro e he
      unfold TodoManager.toggleTodo
      rw [hm, he]
    · intro e he
      unfold TodoManager.deleteTodo
      rw [hm, he]
    · intro spaces2 hok
      unfold TodoManager.toggleTodo
      rw [hm, hok]
    · intro spaces2 hok
      unfold TodoManager.deleteTodo
      rw [hm, hok]

/-- Witness for C5 at concrete stores: a missing space, an out-of-range
index, and a successful toggle with its persisted file. -/
theorem c5_toggle_delete_contract_witness :
    toggle_todo [⟨defaultName, []⟩] 0 (some (("Work").data))
      = .error spaceNotFoundMsg ∧
    delete_todo [⟨defaultName, [⟨("a").data, false, .Medium⟩]⟩] 1 none
      = .error indexOutOfBoundsMsg ∧
    toggle_todo [⟨defaultName, [⟨("a").data, false, .Medium⟩]⟩] 0 none
      = .ok [⟨defaultName, [⟨("a").data, true, .Medium⟩]⟩] := by
  refine ⟨?_, ?_, ?_⟩
  · exact ((c5_toggle_delete_contract [⟨defaultName, []⟩] 0
      (some (("Work").data))).1 (by decide)).1
  · exact (((c5_toggle_delete_contract
        [⟨defaultName, [⟨("a").data, false, .Medium⟩]⟩] 1 none).2.1
      [] ⟨defaultName, [⟨("a").data, false, .Medium⟩]⟩ [] rfl (by simp)
      (by decide)).1 (by decide)).2
  · exact (((c5_toggle_delete_contract
        [⟨defaultName, [⟨("a").data, false, .Medium⟩]⟩] 0 none).2.1
      [] ⟨defaultName, [⟨("a").data, false, .Medium⟩]⟩ [] rfl (by simp)
      (by decide)).2 (by decide)).1

/-- Claim C6: the decoder checks for `{URGENT}`, `{HIGH}`, `{MEDIUM}`,
`{LOW}` as substrings anywhere in the line, in exactly that precedence
order, returning the priority of the first tag present, and `Medium`
when none of the four occurs. -/
theorem c6_priority_decode (line : Str) :
    (occursIn line urgentTag → Priority.from_markdown line = .Urgent) ∧
    (¬occursIn line urgentTag → occursIn line highTag →
      Priority.from_markdown line = .High) ∧
    (¬occursIn line urgentTag → ¬occursIn line highTag →
      occursIn line mediumTag → Priority.from_markdown line = .Medium) ∧
    (¬occursIn line urgentTag → ¬occursIn line highTag →
      ¬occursIn line mediumTag → occursIn line lowTag →
      Priority.from_markdown line = .Low) ∧
    (¬occursIn line urgentTag → ¬occursIn line highTag →
      ¬occursIn line mediumTag → ¬occursIn line lowTag →
      Priority.from_markdown line = .Medium) := by
  have hiff : ∀ pat : Str, strContains line pat = true ↔ occursIn line pat :=
    fun pat => strContains_iff line pat
  refine ⟨?_, ?_, ?_, ?_, ?_⟩
  · intro hu
    unfold Priority.from_markdown
    rw [if_pos ((hiff urgentTag).mpr hu)]
  · intro hnu hh
    unfold Priority.from_markdown
    rw [if_neg (fun hc => hnu ((hiff urgentTag).mp hc)),
      if_pos ((hiff highTag).mpr hh)]
  · intro hnu hnh hm
    unfold Priority.from_markdown
    rw [if_neg (fun hc => hnu ((hiff urgentTag).mp hc)),
      if_neg (fun hc => hnh ((hiff highTag).mp hc)),
      if_pos ((hiff mediumTag).mpr hm)]
  · intro hnu hnh hnm hl
    unfold Priority.from_markdown
    rw [if_neg (fun hc => hnu ((hiff urgentTag).mp hc)),
      if_neg (fun hc => hnh ((hiff highTag).mp hc)),
      if_neg (fun hc => hnm ((hiff mediumTag).mp hc)),
      if_pos ((hiff lowTag).mpr hl)]
  · intro hnu hnh hnm hnl
    unfold Priority.from_markdown
    rw [if_neg (fun hc => hnu ((hiff urgentTag).mp hc)),
      if_neg (fun hc => hnh ((hiff highTag).mp hc)),
      if_neg (fun hc => hnm ((hiff mediumTag).mp hc)),
      if_neg (fun hc => hnl ((hiff lowTag).mp hc))]

/-- Witness for C6: a line containing `{HIGH}` mid-line (and no
`{URGENT}`) decodes to `High`. -/
theorem c6_priority_decode_witness :
    Priority.from_markdown (("see {HIGH} note").data) = .High :=
  (c6_priority_decode (("see {HIGH} note").data)).2.1
    (fun hocc => absurd ((strContains_iff _ _).mpr hocc) (by decide))
    ⟨("see ").data, (" note").data, by decide⟩

/-- Claim C7, counterexample: the line `"- [x]done"` is recorded as a
completed task, but its stored description is the whole line
`"- [x]done"` — the checkbox prefix is NOT stripped, because the strip
pattern `"- [x] "` (with trailing space) does not match — whereas the
claim says the description would be `"done"`. -/
theorem c7_prefix_counterexample :
    parse_markdown_todos (("- [x]done").data)
      = [⟨defaultName, [⟨("- [x]done").data, true, .Medium⟩]⟩] ∧
    ("- [x]done").data ≠ ("done").data := by decide

/-- Claim C7 (amended): a trimmed line starting with `"- [ ]"` is
recorded pending and one starting with `"- [x]"` completed; the parser
strips the checkbox prefix FOLLOWED BY A SPACE (`"- [ ] "`/`"- [x] "`,
and repeatedly); a line `"- [x]"` immediately followed by non-space text
keeps the whole line, prefix included, as the pre-tag-stripping
description. -/
theorem c7_checkbox_strip (rest : Str) :
    (strStartsWith (pendingMarkSp ++ rest) pendingMark = true) ∧
    (strStartsWith (doneMarkSp ++ rest) doneMark = true) ∧
    (isPre pendingMarkSp rest = false →
      taskDescr (pendingMarkSp ++ rest) false = rest) ∧
    (isPre doneMarkSp rest = false →
      taskDescr (doneMarkSp ++ rest) true = rest) ∧
    (∀ c rs, rest = c :: rs → c ≠ ' ' →
      strStartsWith (doneMark ++ rest) doneMark = true ∧
      taskDescr (doneMark ++ rest) true = doneMark ++ rest) := by
  refine ⟨rfl, rfl, ?_, ?_, ?_⟩
  · intro h
    unfold taskDescr
    rw [if_neg (by simp)]
    exact strTrimStartMatches_stripOne (by decide) h
  · intro h
    unfold taskDescr
    rw [if_pos rfl]
    exact strTrimStartMatches_stripOne (by decide) h
  · intro c rs hrest hc
    subst hrest
    refine ⟨isPre_append doneMark (c :: rs), ?_⟩
    unfold taskDescr
    rw [if_pos rfl]
    apply strTrimStartMatches_noStrip
    show isPre ('-' :: ' ' :: '[' :: 'x' :: ']' :: ' ' :: [])
      ('-' :: ' ' :: '[' :: 'x' :: ']' :: c :: rs) = false
    unfold isPre
    rw [if_pos rfl]
    unfold isPre
    rw [if_pos rfl]
    unfold isPre
    rw [if_pos rfl]
    unfold isPre
    rw [if_pos rfl]
    unfold isPre
    rw [if_pos rfl]
    unfold isPre
    rw [if_neg (fun e => hc e.symm)]

/-- Witness for C7 (amended) on the concrete remainders `"done"`. -/
theorem c7_checkbox_strip_witness :
    taskDescr (doneMarkSp ++ ("done").data) true = ("done").data ∧
    taskDescr (doneMark ++ ("done").data) true = doneMark ++ ("done").data :=
  ⟨(c7_checkbox_strip (("done").data)).2.2.2.1 (by decide),
   ((c7_checkbox_strip (("done").data)).2.2.2.2 'd' (("one").data)
     (by decide) (by decide)).2⟩

/-- Claim C8: deleting a valid index `i` from the first space matching
the resolved name removes exactly the task at `i` (length drops by one,
indices below `i` are unchanged, indices at or above `i` shift down by
one) and leaves every other space untouched. -/
theorem c8_delete_shifts (pre : List TodoSpace) (s : TodoSpace)
    (post : List TodoSpace) (index : Nat) (nameOpt : Option Str)
    (hpre : ∀ sp ∈ pre, sp.name ≠ nameOpt.getD defaultName)
    (hs : s.name = nameOpt.getD defaultName)
    (hidx : index < s.todos.length) :
    delete_todo (pre ++ s :: post) index nameOpt
      = .ok (pre ++ ⟨s.name, removeNth index s.todos⟩ :: post) ∧
    (removeNth index s.todos).length = s.todos.length - 1 ∧
    (∀ j, j < index → (removeNth index s.todos).get? j = s.todos.get? j) ∧
    (∀ j, index ≤ j → (removeNth index s.todos).get? j = s.todos.get? (j + 1)) :=
  ⟨deleteIn_found_ok pre s post _ index hpre hs hidx,
   removeNth_length index s.todos hidx,
   fun j hj => removeNth_get?_lt index j s.todos hj,
   fun j hj => removeNth_get?_ge index j s.todos hj⟩

/-- Witness for C8: the spec's own example — three tasks, delete index
1, two remain and the old index 2 answers at index 1. -/
theorem c8_delete_shifts_witness :
    delete_todo [⟨defaultName, [⟨("a").data, false, .Medium⟩,
        ⟨("b").data, false, .Medium⟩, ⟨("c").data, false, .Medium⟩]⟩] 1 none
      = .ok [⟨defaultName, [⟨("a").data, false, .Medium⟩,
          ⟨("c").data, false, .Medium⟩]⟩] ∧
    (removeNth 1 [(⟨("a").data, false, .Medium⟩ : TodoItem),
        ⟨("b").data, false, .Medium⟩, ⟨("c").data, false, .Medium⟩]).length = 2 ∧
    (removeNth 1 [(⟨("a").data, false, .Medium⟩ : TodoItem),
        ⟨("b").data, false, .Medium⟩, ⟨("c").data, false, .Medium⟩]).get? 1
      = some ⟨("c").data, false, .Medium⟩ := by
  have h := c8_delete_shifts [] ⟨defaultName, [⟨("a").data, false, .Medium⟩,
      ⟨("b").data, false, .Medium⟩, ⟨("c").data, false, .Medium⟩]⟩ [] 1 none
    (by simp) rfl (by decide)
  exact ⟨h.1, h.2.1, h.2.2.2 1 (by decide)⟩

/-- Claim C10: toggling the same index in the same space twice restores
the in-memory space sequence exactly. -/
theorem c10_toggle_involution (spaces : List TodoSpace) (index : Nat)
    (nameOpt : Option Str) (spaces1 : List TodoSpace)
    (h : toggle_todo spaces index nameOpt = .ok spaces1) :
    toggle_todo spaces1 index nameOpt = .ok spaces :=
  toggleIn_invol spaces _ index spaces1 h

/-- Witness for C10 on a concrete one-task store. -/
theorem c10_toggle_involution_witness :
    toggle_todo [⟨defaultName, [⟨("a").data, false, .Medium⟩]⟩] 0 none
      = .ok [⟨defaultName, [⟨("a").data, true, .Medium⟩]⟩] ∧
    toggle_todo [⟨defaultName, [⟨("a").data, true, .Medium⟩]⟩] 0 none
      = .ok [⟨defaultName, [⟨("a").data, false, .Medium⟩]⟩] :=
  ⟨rfl, c10_toggle_involution _ 0 none _ rfl⟩

theorem strReplace_head_cons (p0 : Char) (ps rest r : Str) :
    strReplace ((p0 :: ps) ++ rest) (p0 :: ps) r = r ++ strReplace rest (p0 :: ps) r :=
  strReplace_head r (by simp)

/-- Claim C9: the parser's tag stripping removes the occurrences of all
four tag substrings from the task remainder — not only the tag the
decoder matched — and whitespace-trims the result: shown for a remainder
carrying one occurrence of each of the four tags between brace-free
segments, and for a remainder carrying two occurrences of the same tag. -/
theorem c9_all_tags_stripped :
    (∀ a0 a1 a2 a3 a4 : Str, '{' ∉ a0 → '{' ∉ a1 → '{' ∉ a2 → '{' ∉ a3 →
      '{' ∉ a4 →
      itemTextOf (a0 ++ (lowTag ++ (a1 ++ (mediumTag ++ (a2 ++ (highTag ++
          (a3 ++ (urgentTag ++ a4))))))))
        = strTrim (a0 ++ (a1 ++ (a2 ++ (a3 ++ a4))))) ∧
    (∀ b0 b1 b2 : Str, '{' ∉ b0 → '{' ∉ b1 → '{' ∉ b2 →
      itemTextOf (b0 ++ (urgentTag ++ (b1 ++ (urgentTag ++ b2))))
        = strTrim (b0 ++ (b1 ++ b2))) := by
  have hL : lowTag = '{' :: 'L' :: ("OW\x7d").data := by decide
  have hM : mediumTag = '{' :: 'M' :: ("EDIUM\x7d").data := by decide
  have hH : highTag = '{' :: 'H' :: ("IGH\x7d").data := by decide
  have hU : urgentTag = '{' :: 'U' :: ("RGENT\x7d").data := by decide
  constructor
  · intro a0 a1 a2 a3 a4 h0 h1 h2 h3 h4
    unfold itemTextOf
    rw [hL, hM, hH, hU]
    rw [strReplace_skip a0 _ _ _ h0, strReplace_head_cons '{' _ _ [],
      List.nil_append, strReplace_skip a1 _ _ _ h1,
      @strReplace_cross 'L' (("OW\x7d").data) 'M' (("EDIUM\x7d").data) _ []
        (by decide) (by decide),
      strReplace_skip a2 _ _ _ h2,
      @strReplace_cross 'L' (("OW\x7d").data) 'H' (("IGH\x7d").data) _ []
        (by decide) (by decide),
      strReplace_skip a3 _ _ _ h3,
      @strReplace_cross 'L' (("OW\x7d").data) 'U' (("RGENT\x7d").data) _ []
        (by decide) (by decide),
      strReplace_braceFree _ [] h4]
    rw [strReplace_skip a0 _ _ _ h0, strReplace_skip a1 _ _ _ h1,
      strReplace_head_cons '{' _ _ [], List.nil_append,
      strReplace_skip a2 _ _ _ h2,
      @strReplace_cross 'M' (("EDIUM\x7d").data) 'H' (("IGH\x7d").data) _ []
        (by decide) (by decide),
      strReplace_skip a3 _ _ _ h3,
      @strReplace_cross 'M' (("EDIUM\x7d").data) 'U' (("RGENT\x7d").data) _ []
        (by decide) (by decide),
      strReplace_braceFree _ [] h4]
    rw [strReplace_skip a0 _ _ _ h0, strReplace_skip a1 _ _ _ h1,
      strReplace_skip a2 _ _ _ h2,
      strReplace_head_cons '{' _ _ [], List.nil_append,
      strReplace_skip a3 _ _ _ h3,
      @strReplace_cross 'H' (("IGH\x7d").data) 'U' (("RGENT\x7d").data) _ []
        (by decide) (by decide),
      strReplace_braceFree _ [] h4]
    rw [strReplace_skip a0 _ _ _ h0, strReplace_skip a1 _ _ _ h1,
      strReplace_skip a2 _ _ _ h2, strReplace_skip a3 _ _ _ h3,
      strReplace_head_cons '{' _ _ [], List.nil_append,
      strReplace_braceFree _ [] h4]
  · intro b0 b1 b2 h0 h1 h2
    unfold itemTextOf
    rw [hL, hU]
    rw [strReplace_skip b0 _ _ _ h0,
      @strReplace_cross 'L' (("OW\x7d").data) 'U' (("RGENT\x7d").data) _ []
        (by decide) (by decide),
      strReplace_skip b1 _ _ _ h1,
      @strReplace_cross 'L' (("OW\x7d").data) 'U' (("RGENT\x7d").data) _ []
        (by decide) (by decide),
      strReplace_braceFree _ [] h2]
    rw [hM]
    rw [strReplace_skip b0 _ _ _ h0,
      @strReplace_cross 'M' (("EDIUM\x7d").data) 'U' (("RGENT\x7d").data) _ []
        (by decide) (by decide),
      strReplace_skip b1 _ _ _ h1,
      @strReplace_cross 'M' (("EDIUM\x7d").data) 'U' (("RGENT\x7d").data) _ []
        (by decide) (by decide),
      strReplace_braceFree _ [] h2]
    rw [hH]
    rw [strReplace_skip b0 _ _ _ h0,
      @strReplace_cross 'H' (("IGH\x7d").data) 'U' (("RGENT\x7d").data) _ []
        (by decide) (by decide),
      strReplace_skip b1 _ _ _ h1,
      @strReplace_cross 'H' (("IGH\x7d").data) 'U' (("RGENT\x7d").data) _ []
        (by decide) (by decide),
      strReplace_braceFree _ [] h2]
    rw [strReplace_skip b0 _ _ _ h0, strReplace_head_cons '{' _ _ [],
      List.nil_append, strReplace_skip b1 _ _ _ h1,
      strReplace_head_cons '{' _ _ [], List.nil_append,
      strReplace_braceFree _ [] h2]

/-- Witness for C9 on a concrete remainder carrying all four tags. -/
theorem c9_all_tags_stripped_witness :
    itemTextOf (("a ").data ++ (lowTag ++ ((" b ").data ++ (mediumTag ++
        ((" c ").data ++ (highTag ++ ((" d ").data ++ (urgentTag ++ (" e").data))))))))
      = ("a  b  c  d  e").data :=
  ((c9_all_tags_stripped.1 (("a ").data) ((" b ").data) ((" c ").data)
      ((" d ").data) ((" e").data)
      (by decide) (by decide) (by decide) (by decide) (by decide)).trans (by decide))
